import Mathlib

/-!
Verification of the newsflash article pipeline.

Shallow embedding of the core components of the repository:
  * `news_pipeline/processing/ranking.py` (keyword pre-filter),
  * `news_pipeline/embeddings/cache.py` (bounded embedding cache),
  * `news_pipeline/embeddings/embedder.py` and `news_pipeline/newspipe.py`
    (per-article dict effects of embedding and persistence),
  * `news_pipeline/processing/dedupe.py` (fail-open dedup and exemplar choice),
  * `flashcard_pipeline/flashcard_generator.py` (validation and retry loop),
  * `flashcard_pipeline/flashpipe.py` (orchestrator skip logic and
    checkpoint cadence).

External collaborators (the sentence-transformer model, sklearn DBSCAN, the
LLM chain, wall-clock time) are modelled as explicit function parameters;
the pure logic around them is translated directly from the source.
-/

namespace Newsflash

/-! ## Ranker: `keyword_match` (ranking.py) -/

/-- Python `s.lower()` on the strings used here: character-wise lower-casing. -/
def lower (s : String) : String := String.mk (s.toList.map Char.toLower)

/-- Python `needle in haystack` for strings: substring containment. -/
def strIn (needle haystack : String) : Bool :=
  decide (needle.toList <:+: haystack.toList)

/-- Python `s.split()`: split on whitespace runs, dropping empty pieces. -/
def pyWords (s : String) : List String :=
  ((s.toList.splitOnP Char.isWhitespace).filter (fun w => w ≠ [])).map
    (fun w => String.mk w)

/-- An article as seen by the ranker: only its `title` is consulted
(`str(article.get("title", "")).lower()`; a missing title is the empty
string). -/
structure NArticle where
  title : String
deriving DecidableEq

/-- `keyword_match` from ranking.py: early pipeline filter.
Matches if the whole lower-cased keyword is a substring of the lower-cased
title, or at least `max(1, len(words) // 2)` of the individual keyword
tokens are substrings of the title; a keyword with no tokens never
matches. -/
def keyword_match (a : NArticle) (keyword : String) : Bool :=
  let title := lower a.title
  let keyword_l := lower keyword
  let words := (pyWords keyword_l).filter (fun w => w ≠ "")
  if words = [] then false
  else if strIn keyword_l title then true
  else words.countP (fun w => strIn w title) ≥ max 1 (words.length / 2)

/-- The pre-filter as the spec words it (refinement comparison only): the
token threshold is `ceil(token_count / 2)` (minimum 1) instead of the
floor the code computes. -/
def keyword_match_ceil_spec (a : NArticle) (keyword : String) : Bool :=
  let title := lower a.title
  let keyword_l := lower keyword
  let words := (pyWords keyword_l).filter (fun w => w ≠ "")
  if words = [] then false
  else if strIn keyword_l title then true
  else words.countP (fun w => strIn w title) ≥ max 1 ((words.length + 1) / 2)

/-- Claim C1 (amended): `keyword_match` returns true iff the keyword has at
least one whitespace token and either the lower-cased full keyword phrase is
a substring of the lower-cased title, or at least `max(1, floor(token_count
/ 2))` of the individual keyword tokens are substrings of the title. (The
original claim's threshold `ceil(token_count / 2)` is refuted by
`keyword_match_threshold_counterexample`.) -/
theorem keyword_match_iff (a : NArticle) (keyword : String) :
    keyword_match a keyword = true ↔
      ((pyWords (lower keyword)).filter (fun w => w ≠ "") ≠ [] ∧
       ((lower keyword).toList <:+: (lower a.title).toList ∨
        max 1 (((pyWords (lower keyword)).filter (fun w => w ≠ "")).length / 2) ≤
          ((pyWords (lower keyword)).filter (fun w => w ≠ "")).countP
            (fun w => strIn w (lower a.title)))) := by
  have hsi : ∀ n h : String, strIn n h = true ↔ n.toList <:+: h.toList := by
    intro n h; simp [strIn]
  simp only [keyword_match]
  by_cases h0 : (pyWords (lower keyword)).filter (fun w => w ≠ "") = []
  · rw [if_pos h0]
    simp only [h0, ne_eq, not_true_eq_false, false_and, iff_false]
    exact Bool.false_ne_true
  · rw [if_neg h0]
    by_cases h1 : strIn (lower keyword) (lower a.title) = true
    · rw [if_pos h1]
      simp only [true_iff]
      exact ⟨h0, Or.inl ((hsi _ _).mp h1)⟩
    · rw [if_neg h1]
      have h1' : ¬ ((lower keyword).toList <:+: (lower a.title).toList) :=
        fun hc => h1 ((hsi _ _).mpr hc)
      simp only [ge_iff_le, decide_eq_true_eq]
      constructor
      · intro h; exact ⟨h0, Or.inr h⟩
      · rintro ⟨-, hc | hc⟩
        · exact absurd hc h1'
        · exact hc

/-- Claim C1, counterexample to the stated `ceil(token_count / 2)`
threshold: keyword `"xx yy zz"` has 3 tokens, exactly one of which (`"xx"`)
is a substring of title `"xx"`, and the full phrase is not. The code
accepts (threshold `max(1, 3 // 2) = 1`), while the spec's ceil threshold
`max(1, ceil(3 / 2)) = 2` would reject. -/
theorem keyword_match_threshold_counterexample :
    keyword_match ⟨"xx"⟩ "xx yy zz" = true ∧
      keyword_match_ceil_spec ⟨"xx"⟩ "xx yy zz" = false := by
  constructor <;> decide

/-! ## Flashcard generator: validation (flashcard_generator.py) -/

/-- Python `s.strip()`: drop leading and trailing whitespace. -/
def pyStrip (s : String) : String :=
  String.mk (((s.toList.dropWhile Char.isWhitespace).reverse.dropWhile
    Char.isWhitespace).reverse)

/-- The dict produced by the JSON output parser, as read by
`validate_output` and the result-mapping code (missing keys default to
`""`, so fields are total strings). -/
structure RawFlashcard where
  summary : String
  question : String
  answer : String
  context : String
  the_entity_mainly_concerned_with_the_news_article : String
  person_of_contact : String
deriving DecidableEq

/-- The mapped flashcard dict returned by `generate_for_article`. -/
structure Flashcard where
  summary : String
  question : String
  answer : String
  context : String
  entity : String
  person_of_contact : String
deriving DecidableEq

/-- The fixed placeholder-phrase list from `validate_output`. -/
def placeholders : List String :=
  ["n/a", "none", "unknown", "not applicable", "no information", "not mentioned"]

/-- `any(ph in field_value.lower() for ph in placeholders)`. -/
def containsPlaceholder (s : String) : Bool :=
  placeholders.any (fun ph => strIn ph (lower s))

/-- `FlashcardGenerator.validate_output`: collects quality issues in source
order; an empty list means the candidate passes. -/
def validate_output (r : RawFlashcard) : List String :=
  (if pyStrip r.question = "" then ["Question is empty"] else []) ++
  (if pyStrip r.answer = "" then ["Answer is empty"] else []) ++
  (if pyStrip r.context = "" then ["Context is empty"] else []) ++
  (if pyStrip r.summary = "" then ["Summary is empty"] else []) ++
  (if r.question.length < 20 then ["Question too short (< 20 chars)"] else []) ++
  (if r.answer.length < 50 then ["Answer too short (< 50 chars)"] else []) ++
  (if r.context.length < 50 then ["Context too short (< 50 chars)"] else []) ++
  (if r.summary.length < 100 then ["Summary too short (< 100 chars)"] else []) ++
  (if containsPlaceholder r.answer then ["Answer contains placeholder text"] else []) ++
  (if containsPlaceholder r.context then ["Context contains placeholder text"] else []) ++
  (if containsPlaceholder r.summary then ["Summary contains placeholder text"] else []) ++
  (if !(r.answer.toList.any Char.isDigit) && r.answer.length < 100 then
    ["Answer lacks specific details (numbers, statistics)"] else [])

theorem ite_singleton_ne_nil {c : Prop} [Decidable c] {x : String} :
    ((if c then [x] else []) ≠ []) ↔ c := by
  by_cases h : c <;> simp [h]

theorem append_ne_nil_iff {l1 l2 : List String} :
    (l1 ++ l2) ≠ [] ↔ (l1 ≠ [] ∨ l2 ≠ []) := by
  rcases l1 with - | - <;> rcases l2 with - | - <;> simp

/-- Claim C5: a flashcard candidate fails validation (the issue list is
nonempty) iff at least one of the stated conditions holds: an
empty/whitespace-only critical field, a length threshold violation, a
placeholder phrase occurring case-insensitively in answer/context/summary,
or a digit-free answer shorter than 100 characters. -/
theorem validate_output_fails_iff (r : RawFlashcard) :
    validate_output r ≠ [] ↔
      (pyStrip r.question = "" ∨ pyStrip r.answer = "" ∨
       pyStrip r.context = "" ∨ pyStrip r.summary = "" ∨
       r.question.length < 20 ∨ r.answer.length < 50 ∨
       r.context.length < 50 ∨ r.summary.length < 100 ∨
       (∃ ph ∈ placeholders, ph.toList <:+: (lower r.answer).toList) ∨
       (∃ ph ∈ placeholders, ph.toList <:+: (lower r.context).toList) ∨
       (∃ ph ∈ placeholders, ph.toList <:+: (lower r.summary).toList) ∨
       ((∀ c ∈ r.answer.toList, ¬ c.isDigit = true) ∧ r.answer.length < 100)) := by
  simp only [validate_output, append_ne_nil_iff, ite_singleton_ne_nil]
  simp only [containsPlaceholder, strIn, List.any_eq_true, decide_eq_true_eq,
    Bool.and_eq_true, Bool.not_eq_true', List.any_eq_false, Bool.not_eq_true]
  simp only [or_assoc]

/-! ## Flashcard generator: retry loop (flashcard_generator.py) -/

abbrev GenError := String

/-- The field mapping applied to an accepted generation result
(`generate_for_article` lines 157-164 and 171-178). -/
def flashcardOfRaw (r : RawFlashcard) : Flashcard :=
  { summary := r.summary, question := r.question, answer := r.answer,
    context := r.context,
    entity := r.the_entity_mainly_concerned_with_the_news_article,
    person_of_contact := r.person_of_contact }

/-- The fallback empty result after the loop (unreachable for
`attempt = 0`, kept for fidelity). -/
def emptyFlashcard : Flashcard := ⟨"", "", "", "", "", ""⟩

/-- Body truncation before the retry loop: keep the first 4000 characters
and append `"..."` when longer. -/
def truncate_body (body : String) : String :=
  if body.length > 4000 then String.mk (body.toList.take 4000) ++ "..." else body

/-- `FlashcardGenerator.__init__` default `max_retries=3`. -/
def defaultMaxRetries : Nat := 3

/-- The `for attempt in range(self.max_retries + 1)` loop of
`generate_for_article`. `oracle attempt` is the outcome of
`chain.invoke(...)` on that attempt: an exception or a parsed dict. On an
exception, continue if retries remain, else re-raise; on a result, accept
it when validation passes, and also accept it (unvalidated) when this was
the last attempt. -/
def genLoop (oracle : Nat → Except GenError RawFlashcard)
    (maxRetries attempt : Nat) : Except GenError Flashcard :=
  if _h : attempt ≤ maxRetries then
    match oracle attempt with
    | .error e =>
      if _h2 : attempt < maxRetries then genLoop oracle maxRetries (attempt + 1)
      else .error e
    | .ok r =>
      if validate_output r = [] then .ok (flashcardOfRaw r)
      else if _h3 : attempt < maxRetries then genLoop oracle maxRetries (attempt + 1)
      else .ok (flashcardOfRaw r)
  else .ok emptyFlashcard
termination_by maxRetries + 1 - attempt
decreasing_by all_goals omega

/-- The per-article payload `{title, body, source, published_at}` built
once before the loop and reused by every attempt. -/
structure GenPayload where
  title : String
  body : String
  source : String
  published_at : String

/-- The payload actually sent: the article payload with its body
truncated. -/
def payloadOf (article : GenPayload) : GenPayload :=
  { article with body := truncate_body article.body }

/-- `FlashcardGenerator.generate_for_article`, with the LLM chain modelled
as `invoke payload attempt`. The payload is computed once, so every
attempt reuses the same payload. -/
def generate_for_article (invoke : GenPayload → Nat → Except GenError RawFlashcard)
    (maxRetries : Nat) (article : GenPayload) : Except GenError Flashcard :=
  genLoop (invoke (payloadOf article)) maxRetries 0

/-- Attempt `i` fails: the generation call raises, or its result fails
validation. -/
def attemptFails (oracle : Nat → Except GenError RawFlashcard) (i : Nat) : Prop :=
  match oracle i with
  | .error _ => True
  | .ok r => validate_output r ≠ []

/-- If every attempt before the last fails, the loop runs all the way to
attempt `maxRetries` and returns that attempt outcome mapped to a
flashcard (helper for the retry-policy claim). -/
theorem genLoop_all_fail (oracle : Nat → Except GenError RawFlashcard)
    (maxRetries : Nat) :
    ∀ fuel attempt, maxRetries - attempt = fuel → attempt ≤ maxRetries →
      (∀ i, attempt ≤ i → i < maxRetries → attemptFails oracle i) →
      genLoop oracle maxRetries attempt =
        (oracle maxRetries).map flashcardOfRaw := by
  intro fuel
  induction fuel with
  | zero =>
    intro attempt hf ha _hfail
    have heq : attempt = maxRetries := by omega
    subst heq
    rw [genLoop, dif_pos (Nat.le_refl _)]
    cases ho : oracle attempt with
    | error e => simp [Nat.lt_irrefl, Except.map]
    | ok r =>
      by_cases hv : validate_output r = []
      · simp [hv, Except.map]
      · simp [hv, Nat.lt_irrefl, Except.map]
  | succ n ih =>
    intro attempt hf ha hfail
    have hlt : attempt < maxRetries := by omega
    rw [genLoop, dif_pos ha]
    have hrec := ih (attempt + 1) (by omega) (by omega)
      (fun i h1 h2 => hfail i (by omega) h2)
    cases ho : oracle attempt with
    | error e => simpa [hlt] using hrec
    | ok r =>
      have hAf := hfail attempt (Nat.le_refl _) hlt
      rw [attemptFails, ho] at hAf
      simpa [hlt, hAf] using hrec

/-- The loop returns an error only when the very last attempt raised that
error (helper for the retry-policy claim). -/
theorem genLoop_error_only_last (oracle : Nat → Except GenError RawFlashcard)
    (maxRetries : Nat) :
    ∀ fuel attempt e, maxRetries - attempt = fuel →
      genLoop oracle maxRetries attempt = Except.error e →
      oracle maxRetries = Except.error e := by
  intro fuel
  induction fuel with
  | zero =>
    intro attempt e hf hrun
    rw [genLoop] at hrun
    by_cases ha : attempt ≤ maxRetries
    · have heq : attempt = maxRetries := by omega
      subst heq
      rw [dif_pos (Nat.le_refl _)] at hrun
      cases ho : oracle attempt with
      | error e2 =>
        rw [ho] at hrun
        simp only [Nat.lt_irrefl, dite_false, Except.error.injEq] at hrun
        rw [hrun]
      | ok r =>
        rw [ho] at hrun
        by_cases hv : validate_output r = []
        · simp [hv] at hrun
        · simp [hv, Nat.lt_irrefl] at hrun
    · rw [dif_neg ha] at hrun
      exact absurd hrun (by simp [emptyFlashcard])
  | succ n ih =>
    intro attempt e hf hrun
    have hlt : attempt < maxRetries := by omega
    rw [genLoop, dif_pos (by omega : attempt ≤ maxRetries)] at hrun
    cases ho : oracle attempt with
    | error e2 =>
      rw [ho] at hrun
      simp only [hlt, dite_true] at hrun
      exact ih (attempt + 1) e (by omega) hrun
    | ok r =>
      rw [ho] at hrun
      by_cases hv : validate_output r = []
      · simp [hv] at hrun
      · simp only [hv, if_false, hlt, dite_true] at hrun
        exact ih (attempt + 1) e (by omega) hrun

/-- Claim C4: `generate_for_article` retries after a validation failure or
an exception with the same payload, up to `maxRetries` additional
attempts; when all

earlier attempts fail, the last attempt decides: a result that still
fails validation is returned (accepted), and an error is propagated to
the caller only when the last attempt raised it. -/
theorem generate_for_article_retry_policy
    (invoke : GenPayload → Nat → Except GenError RawFlashcard)
    (maxRetries : Nat) (article : GenPayload) :
    ((∀ i, i < maxRetries → attemptFails (invoke (payloadOf article)) i) →
       generate_for_article invoke maxRetries article =
         (invoke (payloadOf article) maxRetries).map flashcardOfRaw)
    ∧ (∀ e, generate_for_article invoke maxRetries article = Except.error e →
        invoke (payloadOf article) maxRetries = Except.error e) := by
  constructor
  · intro hfail
    exact genLoop_all_fail (invoke (payloadOf article)) maxRetries maxRetries 0
      (by omega) (Nat.zero_le _) (fun i _ h2 => hfail i h2)
  · intro e hrun
    exact genLoop_error_only_last (invoke (payloadOf article)) maxRetries
      maxRetries 0 e (by omega) hrun

/-- Witness for C4: an oracle that raises on attempts 0-2 and on attempt 3
returns a result that fails validation; the invalid result is still
accepted. -/
theorem generate_for_article_retry_policy_witness :
    generate_for_article
      (fun _ i => if i < 3 then Except.error "transient"
        else Except.ok ⟨"", "", "", "", "", ""⟩)
      3 ⟨"t", "b", "s", "d"⟩ =
      Except.ok (flashcardOfRaw ⟨"", "", "", "", "", ""⟩) := by
  have h := (generate_for_article_retry_policy
    (fun _ i => if i < 3 then Except.error "transient"
      else Except.ok ⟨"", "", "", "", "", ""⟩)
    3 ⟨"t", "b", "s", "d"⟩).1 ?_
  · rw [h]; rfl
  · intro i hi
    have h0 : i = 0 ∨ i = 1 ∨ i = 2 := by omega
    rcases h0 with h0 | h0 | h0 <;> subst h0 <;> exact trivial

/-! ## Orchestrator: skip logic and checkpoint cadence (flashpipe.py) -/

/-- An article record in resultsgen.json as read by flashpipe.py. Keys the
code treats via `article.get(key, "")` are total strings (a missing key
behaves as `""`, and both `None` and `""` are falsy in the skip test). -/
structure FArticle where
  title : String
  body : String
  published_at : String
  source : String
  summary : String
  question : String
  answer : String
  context : String
  entity : String
  person_of_contact : String
deriving DecidableEq

/-- `process_single_article` from flashpipe.py, with the generator call as
an explicit function. Returns the (possibly updated) article, the error
message if generation raised, and the was-skipped flag. On the error path
the code re-assigns each flashcard key to `article.get(key, "")`, which is
the identity in this model. -/
def process_single_article
    (gen : GenPayload → Except GenError Flashcard) (a : FArticle) :
    FArticle × Option GenError × Bool :=
  if a.summary ≠ "" ∧ a.question ≠ "" then (a, none, true)
  else
    match gen { title := a.title, body := a.body,
                published_at := a.published_at, source := a.source } with
    | .ok r =>
      ({ a with summary := r.summary, question := r.question,
                answer := r.answer, context := r.context,
                entity := r.entity,
                person_of_contact := r.person_of_contact }, none, false)
    | .error e => (a, some e, false)

/-- Claim C6: an article whose `summary` and `question` are both non-empty
is returned unchanged and reported as skipped, whatever the generator
does — so a second orchestrator run leaves every already-completed
article untouched. -/
theorem process_single_article_skips
    (gen : GenPayload → Except GenError Flashcard) (a : FArticle)
    (hs : a.summary ≠ "") (hq : a.question ≠ "") :
    process_single_article gen a = (a, none, true) := by
  rw [process_single_article, if_pos ⟨hs, hq⟩]

/-- Witness for C6 at a concrete completed article and a generator that
would fail if called. -/
theorem process_single_article_skips_witness :
    process_single_article (fun _ => Except.error "no llm")
      ⟨"t", "b", "d", "s", "sum", "q", "ans", "ctx", "e", "p"⟩ =
      (⟨"t", "b", "d", "s", "sum", "q", "ans", "ctx", "e", "p"⟩, none, true) :=
  process_single_article_skips _ _ (by decide) (by decide)

/-- Outcome of one completed future in the orchestrator loop, as seen by
the tally code: success, exhausted-failure, or skip. -/
inductive FEvent where
  | success : FEvent
  | failure : FEvent
  | skipped : FEvent
deriving DecidableEq

/-- The counters of `main` in flashpipe.py plus the number of
`save_updated_results` calls issued so far. -/
structure RunState where
  successful : Nat
  failed : Nat
  skipCount : Nat
  persists : Nat
deriving DecidableEq

/-- One iteration of the `as_completed` loop in `main`: bump the matching
counter, then persist when `(successful + failed) % 10 == 0`. The check
runs after every completed future, skips included. -/
def stepEvent (s : RunState) (e : FEvent) : RunState :=
  let s1 :=
    match e with
    | .success => { s with successful := s.successful + 1 }
    | .failure => { s with failed := s.failed + 1 }
    | .skipped => { s with skipCount := s.skipCount + 1 }
  if (s1.successful + s1.failed) % 10 = 0 then
    { s1 with persists := s1.persists + 1 }
  else s1

/-- The whole `as_completed` loop starting from zeroed counters. -/
def runLoop (events : List FEvent) : RunState :=
  events.foldl stepEvent ⟨0, 0, 0, 0⟩

/-- Number of durable persists a `main` run performs on a batch with the
given completion events: none at all when there is nothing to process
(`to_process == 0` returns before the loop; that happens exactly when
every article is skipped), otherwise the loop persists plus the final
unconditional one. -/
def mainPersists (events : List FEvent) : Nat :=
  if events.countP (fun e => e ≠ FEvent.skipped) = 0 then 0
  else (runLoop events).persists + 1

/-- The original claim C3's prediction, following its words: a persist
after a completed article (success or failure, not skip) exactly when the
running successes+failures count is a multiple of 10 (refinement
comparison only). -/
def specPersistsAux (completed : Nat) : List FEvent → Nat
  | [] => 0
  | e :: es =>
    match e with
    | .skipped => specPersistsAux completed es
    | _ =>
      (if (completed + 1) % 10 = 0 then 1 else 0) +
        specPersistsAux (completed + 1) es

/-- Original claim C3's predicted total: mid-run persists after non-skip
completions only, plus the final persist. -/
def specPersists (events : List FEvent) : Nat :=
  specPersistsAux 0 events + 1

/-- Claim C3, counterexample: with completion order skip-then-success the
code persists twice — the skip completes while `successful + failed = 0`
and `0 % 10 == 0` triggers a persist, then the final unconditional
persist follows — while the claim's characterization (persists only
after non-skip completions, plus the final one) predicts 1. -/
theorem checkpoint_cadence_counterexample :
    mainPersists [FEvent.skipped, FEvent.success] = 2 ∧
      specPersists [FEvent.skipped, FEvent.success] = 1 := by
  constructor <;> rfl

/-- Amended cadence, stated independently of `RunState`: walking the
events, a persist fires after each event (skips included) exactly when
the post-event count of non-skip completions is a multiple of 10. -/
def checkpointSpecAux (completed : Nat) : List FEvent → Nat
  | [] => 0
  | e :: es =>
    let completed2 := if e = FEvent.skipped then completed else completed + 1
    (if completed2 % 10 = 0 then 1 else 0) + checkpointSpecAux completed2 es

/-- Amended predicted total: per-event persists plus the final one. -/
def checkpointSpec (events : List FEvent) : Nat :=
  checkpointSpecAux 0 events + 1

/-- One loop step adds 1 to `successful + failed` exactly on non-skip
events (helper). -/
theorem stepEvent_sf (s : RunState) (e : FEvent) :
    (stepEvent s e).successful + (stepEvent s e).failed =
      s.successful + s.failed + (if e = FEvent.skipped then 0 else 1) := by
  cases e <;> simp only [stepEvent] <;> split <;> simp <;> omega

/-- One loop step persists exactly when the updated completion count is a
multiple of 10 (helper). -/
theorem stepEvent_persists (s : RunState) (e : FEvent) :
    (stepEvent s e).persists =
      s.persists + (if (s.successful + s.failed +
        (if e = FEvent.skipped then 0 else 1)) % 10 = 0 then 1 else 0) := by
  cases e <;> simp only [stepEvent] <;> split_ifs with h1 h2 <;>
    simp_all <;> omega

/-- Loop invariant: persists performed by the loop from any starting state
(helper). -/
theorem foldl_stepEvent_persists (es : List FEvent) :
    ∀ s : RunState, (es.foldl stepEvent s).persists =
      s.persists + checkpointSpecAux (s.successful + s.failed) es := by
  induction es with
  | nil => intro s; simp [checkpointSpecAux]
  | cons e es ih =>
    intro s
    rw [List.foldl_cons, ih (stepEvent s e), stepEvent_persists, stepEvent_sf,
      checkpointSpecAux]
    cases e <;> simp <;> omega

/-- Claim C3 (amended): on any batch with at least one non-skipped
article, the persist count equals the per-event characterization — a
persist after every processed article (including skips) exactly when the
running successes+failures count is a multiple of 10 — plus one final
persist; in particular a batch of 23 non-skipped articles persists after
the 10th and 20th completions plus the final one, three in total. -/
theorem mainPersists_eq_checkpointSpec (events : List FEvent) :
    (events.countP (fun e => e ≠ FEvent.skipped) ≠ 0 →
       mainPersists events = checkpointSpec events)
    ∧ mainPersists (List.replicate 23 FEvent.success) = 3 := by
  constructor
  · intro h
    rw [mainPersists, if_neg h, checkpointSpec, runLoop,
      foldl_stepEvent_persists]
    simp
  · rfl

/-- Witness for C3 (amended) on a concrete one-success batch. -/
theorem mainPersists_eq_checkpointSpec_witness :
    mainPersists [FEvent.success] = checkpointSpec [FEvent.success] :=
  (mainPersists_eq_checkpointSpec [FEvent.success]).1 (by decide)

/-! ## Embedding cache (cache.py) -/

/-- A row of the sqlite `cache` table: `(hash TEXT PRIMARY KEY, vector
BLOB, created_at REAL)`. Vector components stand for the float32 values
the blob stores: `astype(np.float32).tobytes()` followed by
`np.frombuffer(..., dtype=np.float32)` is an exact byte-level round trip,
so the blob encoding is the identity here. Timestamps are modelled as
naturals. -/
structure CacheEntry where
  hash : String
  vector : List Int
  created_at : Nat
deriving DecidableEq

/-- The `ORDER BY created_at ASC` comparison. -/
def byCreated (a b : CacheEntry) : Prop := a.created_at ≤ b.created_at

instance : DecidableRel byCreated := fun a b => Nat.decLe a.created_at b.created_at

instance : IsTotal CacheEntry byCreated :=
  ⟨fun a b => Nat.le_total a.created_at b.created_at⟩

instance : IsTrans CacheEntry byCreated :=
  ⟨fun _ _ _ => Nat.le_trans⟩

/-- `get_embedding` from cache.py: `SELECT vector FROM cache WHERE
hash=?`, `None` when no row matches. -/
def get_embedding (state : List CacheEntry) (h : String) : Option (List Int) :=
  (state.find? (fun e => e.hash = h)).map (fun e => e.vector)

/-- `save_embedding` from cache.py: `REPLACE INTO` (delete any row with
the same hash, insert the new row with the call timestamp), then if the
row count exceeds the configured maximum, delete the `count - max` rows
with the smallest `created_at` (`ORDER BY created_at ASC LIMIT ?`),
realized by sorting on `created_at`. -/
def save_embedding (maxItems : Nat) (state : List CacheEntry)
    (h : String) (v : List Int) (ts : Nat) : List CacheEntry :=
  let replaced := state.filter (fun e => e.hash ≠ h) ++ [⟨h, v, ts⟩]
  let count := replaced.length
  if count > maxItems then
    let victims := ((replaced.insertionSort byCreated).take (count - maxItems)).map
      (fun e => e.hash)
    replaced.filter (fun e => e.hash ∉ victims)
  else replaced

/-- Saving a fresh hash into a cache with room appends the entry
(helper). -/
theorem save_embedding_fresh_no_evict (maxItems : Nat) (st : List CacheEntry)
    (e : CacheEntry) (hfresh : ∀ x ∈ st, x.hash ≠ e.hash)
    (hlen : st.length + 1 ≤ maxItems) :
    save_embedding maxItems st e.hash e.vector e.created_at = st ++ [e] := by
  have hfil : st.filter (fun x => x.hash ≠ e.hash) = st :=
    List.filter_eq_self.mpr (fun a ha => by simpa using hfresh a ha)
  simp only [save_embedding, hfil]
  rw [if_neg (by simp; omega)]

/-- Repeatedly saving fresh hashes while the bound is not exceeded simply
accumulates the entries in order (helper). -/
theorem fold_save_fresh (maxItems : Nat) : ∀ (es st : List CacheEntry),
    ((st ++ es).map (fun e => e.hash)).Nodup →
    st.length + es.length ≤ maxItems →
    es.foldl (fun s e => save_embedding maxItems s e.hash e.vector e.created_at)
      st = st ++ es := by
  intro es
  induction es with
  | nil => intro st _ _; simp
  | cons e es ih =>
    intro st hnodup hlen
    have hfresh : ∀ x ∈ st, x.hash ≠ e.hash := by
      intro x hx heq
      have : e.hash ∈ es.map (fun y => y.hash) ∨ x.hash ∈ st.map (fun y => y.hash) := by
        right; exact List.mem_map_of_mem _ hx
      rw [List.map_append] at hnodup
      have hdis := (List.nodup_append.mp hnodup).2.2
      exact hdis (List.mem_map_of_mem _ hx)
        (by rw [heq]; exact List.mem_cons_self _ _)
    have hstep := save_embedding_fresh_no_evict maxItems st e hfresh
      (by simp at hlen ⊢; omega)
    rw [List.foldl_cons, hstep]
    have := ih (st ++ [e]) (by simpa using hnodup) (by simp at hlen ⊢; omega)
    rw [this, List.append_assoc]
    rfl

/-- Saving a fresh, newest entry into an exactly-full cache whose entries
have strictly increasing timestamps evicts exactly the oldest entry
(helper). -/
theorem save_embedding_overflow_evicts_oldest (maxItems : Nat)
    (st : List CacheEntry) (e : CacheEntry)
    (hnodup : ((st ++ [e]).map (fun x => x.hash)).Nodup)
    (hsorted : (st ++ [e]).Pairwise (fun a b => a.created_at < b.created_at))
    (hlen : st.length = maxItems) :
    save_embedding maxItems st e.hash e.vector e.created_at =
      (st ++ [e]).tail := by
  have hfresh : ∀ x ∈ st, x.hash ≠ e.hash := by
    intro x hx heq
    rw [List.map_append] at hnodup
    exact (List.nodup_append.mp hnodup).2.2 (List.mem_map_of_mem _ hx)
      (by rw [heq]; simp)
  have hfil : st.filter (fun x => x.hash ≠ e.hash) = st :=
    List.filter_eq_self.mpr (fun a ha => by simpa using hfresh a ha)
  simp only [save_embedding, hfil]
  rw [if_pos (by simp; omega)]
  have hsorted2 : List.Sorted byCreated (st ++ [e]) :=
    hsorted.imp (fun hab => Nat.le_of_lt hab)
  rw [hsorted2.insertionSort_eq]
  have hk : (st ++ [e]).length - maxItems = 1 := by simp; omega
  rw [hk]
  cases st with
  | nil => simp
  | cons s0 st2 =>
    have htake : ((s0 :: st2) ++ [e]).take 1 = [s0] := rfl
    rw [htake]
    simp only [List.map_cons, List.map_nil]
    have : ((s0 :: st2) ++ [e]).filter (fun x => x.hash ∉ [s0.hash]) = st2 ++ [e] := by
      rw [List.cons_append, List.filter_cons]
      have hns : (s0.hash ∉ [s0.hash]) = False := by simp
      rw [List.filter_eq_self.mpr]
      · simp
      · intro a ha
        have hanodup := hnodup
        rw [List.cons_append, List.map_cons, List.nodup_cons] at hanodup
        have : a.hash ∈ (st2 ++ [e]).map (fun x => x.hash) :=
          List.mem_map_of_mem _ ha
        simp only [decide_eq_true_eq]
        simp only [List.mem_singleton]
        intro heq
        exact hanodup.1 (by rw [← heq]; exact this)
    rw [this]
    rfl

/-- After any save into a cache with distinct hashes, the entry count is
at most the configured maximum (helper; on overflow exactly `count - max`
distinct-hash rows are deleted). -/
theorem save_embedding_length_le (maxItems : Nat) (state : List CacheEntry)
    (h : String) (v : List Int) (ts : Nat)
    (hnodup : (state.map (fun e => e.hash)).Nodup) :
    (save_embedding maxItems state h v ts).length ≤ maxItems := by
  simp only [save_embedding]
  set F := state.filter (fun e => e.hash ≠ h) with hF
  set R := F ++ [(⟨h, v, ts⟩ : CacheEntry)] with hR
  have hRnodup : (R.map (fun e => e.hash)).Nodup := by
    rw [hR, List.map_append]
    rw [List.nodup_append]
    refine ⟨((List.filter_sublist state).map (fun e => e.hash)).nodup hnodup, by simp, ?_⟩
    intro a ha hb
    simp only [List.map_cons, List.map_nil, List.mem_singleton] at hb
    subst hb
    obtain ⟨x, hx, hxh⟩ := List.mem_map.mp ha
    have := List.of_mem_filter hx
    simp only [decide_eq_true_eq] at this
    exact this (by rw [hxh])
  by_cases hov : R.length > maxItems
  · rw [if_pos hov]
    set k := R.length - maxItems with hk
    set sorted := R.insertionSort byCreated with hsorted
    have hperm : List.Perm sorted R := List.perm_insertionSort byCreated R
    set victims := (sorted.take k).map (fun e => e.hash) with hV
    have hsplit : sorted = sorted.take k ++ sorted.drop k :=
      (List.take_append_drop k sorted).symm
    have hsortnodup : (sorted.map (fun e => e.hash)).Nodup :=
      ((hperm.map (fun e => e.hash)).nodup_iff).mpr hRnodup
    have hfiltperm :
        List.Perm (R.filter (fun e => e.hash ∉ victims))
          (sorted.filter (fun e => e.hash ∉ victims)) :=
      (hperm.filter _).symm
    have htakenil :
        (sorted.take k).filter (fun e => e.hash ∉ victims) = [] := by
      apply List.filter_eq_nil_iff.mpr
      intro a ha
      simp only [decide_eq_true_eq, Decidable.not_not]
      exact List.mem_map_of_mem _ ha
    have hdropself :
        (sorted.drop k).filter (fun e => e.hash ∉ victims) = sorted.drop k := by
      apply List.filter_eq_self.mpr
      intro a ha
      simp only [decide_eq_true_eq]
      intro hmem
      rw [hsplit, List.map_append, List.nodup_append] at hsortnodup
      exact hsortnodup.2.2 hmem (List.mem_map_of_mem _ ha)
    have hlen2 : (R.filter (fun e => e.hash ∉ victims)).length =
        (sorted.drop k).length := by
      rw [hfiltperm.length_eq]
      conv_lhs => rw [hsplit]
      rw [List.filter_append, htakenil, hdropself, List.nil_append]
    rw [hlen2, List.length_drop, hperm.length_eq]
    omega
  · rw [if_neg hov]
    omega

/-- Inserting `max + 1` distinct-hash entries with strictly increasing
timestamps into an empty cache leaves exactly the last `max` of them: the
single evicted entry is the head, the one with the oldest `created_at`
(helper). -/
theorem cache_insert_overflow_scenario (maxItems : Nat)
    (entries : List CacheEntry)
    (hnodup : (entries.map (fun e => e.hash)).Nodup)
    (hmono : entries.Pairwise (fun a b => a.created_at < b.created_at))
    (hlen : entries.length = maxItems + 1) :
    entries.foldl (fun st e =>
      save_embedding maxItems st e.hash e.vector e.created_at) [] =
      entries.tail := by
  have hne : entries ≠ [] := by
    intro hcon; rw [hcon] at hlen; simp at hlen
  obtain ⟨init, last, hsplit⟩ : ∃ init last, entries = init ++ [last] :=
    ⟨entries.dropLast, entries.getLast hne,
      (List.dropLast_append_getLast hne).symm⟩
  subst hsplit
  rw [List.foldl_append]
  have hinitlen : init.length = maxItems := by
    rw [List.length_append] at hlen; simp at hlen; omega
  rw [fold_save_fresh maxItems init []
    (by
      rw [List.map_append] at hnodup
      simpa using (List.nodup_append.mp hnodup).1)
    (by simp; omega)]
  simp only [List.nil_append]
  exact save_embedding_overflow_evicts_oldest maxItems init last hnodup
    hmono hinitlen

/-- Claim C2: after every `save_embedding` the cache holds at most the
configured maximum number of entries, and inserting `max + 1` distinct
hashes (with increasing timestamps, as `time.time()` supplies) into an
empty cache leaves exactly the `max` newest entries — the evicted one is
the entry with the oldest `created_at`. -/
theorem cache_bound_and_oldest_eviction (maxItems : Nat) :
    (∀ (state : List CacheEntry) (h : String) (v : List Int) (ts : Nat),
       (state.map (fun e => e.hash)).Nodup →
       (save_embedding maxItems state h v ts).length ≤ maxItems)
    ∧ (∀ entries : List CacheEntry,
       (entries.map (fun e => e.hash)).Nodup →
       entries.Pairwise (fun a b => a.created_at < b.created_at) →
       entries.length = maxItems + 1 →
       entries.foldl (fun st e =>
         save_embedding maxItems st e.hash e.vector e.created_at) [] =
         entries.tail) :=
  ⟨fun state h v ts hnd => save_embedding_length_le maxItems state h v ts hnd,
   fun entries hnd hmono hlen =>
     cache_insert_overflow_scenario maxItems entries hnd hmono hlen⟩

/-- Witness for C2 with `max = 2` and three distinct inserts. -/
theorem cache_bound_and_oldest_eviction_witness :
    (save_embedding 2 [] "a" [1] 5).length ≤ 2 ∧
    ([⟨"a", [1], 0⟩, ⟨"b", [2], 1⟩, ⟨"c", [3], 2⟩] : List CacheEntry).foldl
      (fun st e => save_embedding 2 st e.hash e.vector e.created_at) [] =
      ([⟨"a", [1], 0⟩, ⟨"b", [2], 1⟩, ⟨"c", [3], 2⟩] : List CacheEntry).tail := by
  constructor
  · exact (cache_bound_and_oldest_eviction 2).1 [] "a" [1] 5 (by decide)
  · exact (cache_bound_and_oldest_eviction 2).2 _ (by decide) (by decide)
      (by decide)

/-- `find?` skips a prefix with no match (helper). -/
theorem find?_append_none {p : CacheEntry → Bool} {l1 l2 : List CacheEntry}
    (h : ∀ x ∈ l1, ¬ p x = true) : (l1 ++ l2).find? p = l2.find? p := by
  induction l1 with
  | nil => rfl
  | cons a l1 ih =>
    rw [List.cons_append, List.find?_cons]
    rw [Bool.eq_false_iff.mpr (h a (List.mem_cons_self a l1))]
    exact ih (fun x hx => h x (List.mem_cons_of_mem a hx))

/-- Claim C9: `save_embedding h v` followed by `get_embedding h` returns
exactly `v` (the cache stores the float32 vector bytes losslessly), for
any prior cache contents, provided the bound is positive and the write
timestamp is newer than every existing row (as `time.time()` supplies);
and `get_embedding` is an exact lookup: a hash with no row returns
`None`. -/
theorem cache_round_trip_and_absent (maxItems : Nat) :
    (∀ (state : List CacheEntry) (h : String) (v : List Int) (ts : Nat),
       1 ≤ maxItems → (∀ e ∈ state, e.created_at < ts) →
       get_embedding (save_embedding maxItems state h v ts) h = some v)
    ∧ (∀ (state : List CacheEntry) (h : String),
       (∀ e ∈ state, e.hash ≠ h) → get_embedding state h = none) := by
  constructor
  · intro state h v ts hmax hts
    simp only [save_embedding]
    set n : CacheEntry := ⟨h, v, ts⟩ with hn
    set F := state.filter (fun e => e.hash ≠ h) with hFdef
    set R := F ++ [n] with hRdef
    have hFne : ∀ x ∈ F, x.hash ≠ h := by
      intro x hx
      have := List.of_mem_filter hx
      simpa using this
    have hFget : ∀ (l2 : List CacheEntry) (G : List CacheEntry),
        (∀ x ∈ G, x.hash ≠ h) →
        get_embedding (G ++ l2) h = get_embedding l2 h := by
      intro l2 G hG
      simp only [get_embedding]
      rw [find?_append_none]
      intro x hx
      simp only [decide_eq_true_eq]
      exact hG x hx
    by_cases hov : R.length > maxItems
    · rw [if_pos hov]
      set k := R.length - maxItems with hkdef
      set sorted := R.insertionSort byCreated with hsorted
      have hperm : List.Perm sorted R := List.perm_insertionSort byCreated R
      set victims := (sorted.take k).map (fun e => e.hash) with hV
      have hqn : n.hash ∉ victims := by
        intro hmem
        obtain ⟨x, hxtake, hxh⟩ := List.mem_map.mp hmem
        have hxR : x ∈ R := hperm.mem_iff.mp ((List.take_sublist k sorted).subset hxtake)
        have hxn : x = n := by
          rcases List.mem_append.mp hxR with hxF | hxone
          · exact absurd hxh (hFne x hxF)
          · simpa using hxone
        subst hxn
        -- n is in the evicted prefix; derive a contradiction
        have hklt : k < sorted.length := by
          rw [hperm.length_eq]; omega
        have hdroplen : 0 < (sorted.drop k).length := by
          rw [List.length_drop, hperm.length_eq]; omega
        have hdropne : sorted.drop k ≠ [] := by
          intro hcon; rw [hcon] at hdroplen; simp at hdroplen
        set y := (sorted.drop k).head hdropne with hy
        have hymem : y ∈ sorted.drop k := List.head_mem hdropne
        have hpw : List.Pairwise byCreated (sorted.take k ++ sorted.drop k) := by
          rw [List.take_append_drop]
          exact List.sorted_insertionSort byCreated R
        have hle : byCreated n y :=
          (List.pairwise_append.mp hpw).2.2 n hxtake y hymem
        have hyR : y ∈ R := hperm.mem_iff.mp ((List.drop_sublist k sorted).subset hymem)
        rcases List.mem_append.mp hyR with hyF | hyone
        · have : y.created_at < ts := hts y (List.mem_of_mem_filter hyF)
          exact absurd hle (by simp only [byCreated, hn] at *; omega)
        · have hyn : y = n := by simpa using hyone
          -- y = n would mean n occurs in both the prefix and the suffix
          have hcountF : F.count n = 0 := by
            apply List.count_eq_zero.mpr
            intro hcon
            have : n.created_at < ts := hts n (List.mem_of_mem_filter hcon)
            simp [hn] at this
          have hcountR : R.count n = 1 := by
            rw [hRdef, List.count_append, hcountF]
            simp
          have hcountsorted : sorted.count n = 1 := by
            rw [hperm.count_eq]; exact hcountR
          have h1 : 1 ≤ (sorted.take k).count n :=
            List.count_pos_iff.mpr hxtake
          have h2 : 1 ≤ (sorted.drop k).count n :=
            List.count_pos_iff.mpr (hyn ▸ hymem)
          have : sorted.count n =
              (sorted.take k).count n + (sorted.drop k).count n := by
            conv_lhs => rw [← List.take_append_drop k sorted]
            rw [List.count_append]
          omega
      have hfilsplit :
          R.filter (fun e => e.hash ∉ victims) =
            F.filter (fun e => e.hash ∉ victims) ++ [n] := by
        rw [hRdef, List.filter_append]
        congr 1
        simp [hqn]
      rw [hfilsplit]
      rw [hFget [n] _ (fun x hx => hFne x (List.mem_of_mem_filter hx))]
      simp [get_embedding, hn]
    · rw [if_neg hov]
      rw [hFget [n] F hFne]
      simp [get_embedding, hn]
  · intro state h hne
    simp only [get_embedding]
    rw [List.find?_eq_none.mpr]
    · rfl
    · intro x hx
      simp only [decide_eq_true_eq]
      exact hne x hx

/-- Witness for C9: a round trip through a cache at capacity (slot `"a"`
is evicted, `"c"` is readable) and an absent lookup. -/
theorem cache_round_trip_and_absent_witness :
    get_embedding (save_embedding 2
      [⟨"a", [1], 0⟩, ⟨"b", [2], 1⟩] "c" [3] 2) "c" = some [3] ∧
    get_embedding [⟨"a", [1], 0⟩] "zzz" = none := by
  constructor
  · exact (cache_round_trip_and_absent 2).1 [⟨"a", [1], 0⟩, ⟨"b", [2], 1⟩]
      "c" [3] 2 (by decide) (by decide)
  · exact (cache_round_trip_and_absent 2).2 [⟨"a", [1], 0⟩] "zzz" (by decide)

/-! ## Deduplicator (dedupe.py) -/

/-- The value found under an article's `"embedding"` key, as numpy sees
it: `DEmb.obj` is a present but non-numeric value (`None`, a string,
...), which `np.asarray` turns into a 0-d object scalar; `DEmb.vec` is a
numeric vector of shape `(n,)`. -/
inductive DEmb where
  | obj : DEmb
  | vec : List Int → DEmb
deriving DecidableEq

/-- An article as the deduplicator sees it: its title and its
`"embedding"` key (`none` when the key is absent, which makes the
comprehension raise `KeyError`). -/
structure DArticle where
  title : String
  embedding : Option DEmb
deriving DecidableEq

/-- The numpy shape of `np.asarray(x)`: `none` for a 0-d object scalar,
`some n` for a numeric vector of length `n`. -/
def embShape : DEmb → Option Nat
  | DEmb.obj => none
  | DEmb.vec v => some v.length

/-- The comprehension `[np.asarray(a["embedding"]) for a in articles]`:
raises `KeyError` (`none`) iff some article lacks the key. -/
def collectEmbs : List DArticle → Option (List DEmb)
  | [] => some []
  | a :: rest =>
    match a.embedding, collectEmbs rest with
    | some e, some es => some (e :: es)
    | _, _ => none

/-- `np.array([np.asarray(a["embedding"]) for a in articles])` under the
`try`: raises (`none`) when the comprehension raises (a missing
`"embedding"` key) or the collected arrays have inhomogeneous shapes. A
homogeneous stack — all numeric rows of one length, or all 0-d object
scalars — builds successfully even when it is not numeric. -/
def buildMatrix (articles : List DArticle) : Option (List DEmb) :=
  match collectEmbs articles with
  | none => none
  | some [] => some []
  | some (e :: es) =>
    if es.all (fun x => embShape x = embShape e) then some (e :: es)
    else none

/-- `len(str(a.get("title", "") or ""))`, the exemplar-selection key. -/
def titleLen (a : DArticle) : Nat := a.title.length

/-- Python `max(group, key=...)`: scan left to right, replacing the
current best only on a strictly larger key, so the earliest maximum
wins. `none` on an empty group (the code never builds one). -/
def pickBest : List DArticle → Option DArticle
  | [] => none
  | a :: rest =>
    some (rest.foldl (fun best x => if titleLen best < titleLen x then x else best) a)

/-- The keys of the `clusters` dict in first-occurrence order
(`clusters.setdefault(lbl, []).append(...)` preserves insertion order). -/
def firstOccKeys (labels : List Int) : List Int :=
  labels.foldl (fun acc l => if l ∈ acc then acc else acc ++ [l]) []

/-- The label-grouping loop of `dedupe_events_ai`: one group per distinct
DBSCAN label, members in input order. -/
def groupByLabels (labels : List Int) (articles : List DArticle) :
    List (List DArticle) :=
  let pairs := labels.zip articles
  (firstOccKeys labels).map (fun l => (pairs.filter (fun p => p.1 = l)).map
    (fun p => p.2))

/-- `dedupe_events_ai` from dedupe.py. The DBSCAN labelling is an external
collaborator (sklearn), passed as `labels`. Only the matrix build sits
inside the `try`: when it raises, the input passes through unchanged, but
`DBSCAN(...).fit(X)` runs outside the `try` and raises `ValueError` on a
matrix that is not 2-d numeric (an object-dtype stack); that exception
propagates to the caller. -/
def dedupe_events_ai (labels : List Int) (articles : List DArticle) :
    Except String (List DArticle) :=
  if articles = [] then Except.ok []
  else
    match buildMatrix articles with
    | none => Except.ok articles
    | some X =>
      if X.any (fun e => e = DEmb.obj) then
        Except.error "ValueError from DBSCAN.fit: non-numeric matrix"
      else
        Except.ok ((groupByLabels labels articles).filterMap pickBest)

/-- The comprehension raises as soon as one article lacks the
`"embedding"` key (helper). -/
theorem collectEmbs_eq_none_of_mem {articles : List DArticle} {a : DArticle}
    (ha : a ∈ articles) (hnone : a.embedding = none) :
    collectEmbs articles = none := by
  induction articles with
  | nil => cases ha
  | cons b rest ih =>
    rcases List.mem_cons.mp ha with hb | hrest
    · subst hb
      rw [collectEmbs, hnone]
    · rw [collectEmbs, ih hrest]
      cases hb : b.embedding <;> rfl

/-- A missing `"embedding"` key makes the whole matrix build raise
(helper). -/
theorem buildMatrix_eq_none_of_mem {articles : List DArticle} {a : DArticle}
    (ha : a ∈ articles) (hnone : a.embedding = none) :
    buildMatrix articles = none := by
  rw [buildMatrix, collectEmbs_eq_none_of_mem ha hnone]

/-- A successful comprehension collects each present embedding (helper). -/
theorem mem_collectEmbs {articles : List DArticle} {embs : List DEmb}
    (hc : collectEmbs articles = some embs) :
    ∀ a ∈ articles, ∀ ea, a.embedding = some ea → ea ∈ embs := by
  induction articles generalizing embs with
  | nil => intro a ha; cases ha
  | cons b rest ih =>
    intro a ha ea hea
    rw [collectEmbs] at hc
    cases hb : b.embedding with
    | none => rw [hb] at hc; cases hc
    | some e0 =>
      cases hrest : collectEmbs rest with
      | none => rw [hb, hrest] at hc; cases hc
      | some es =>
        rw [hb, hrest] at hc
        simp only [Option.some.injEq] at hc
        subst hc
        rcases List.mem_cons.mp ha with hab | har
        · subst hab
          rw [hb] at hea
          simp only [Option.some.injEq] at hea
          subst hea
          exact List.mem_cons_self _ _
        · exact List.mem_cons_of_mem _ (ih hrest a har ea hea)

/-- Two present embeddings of different shapes make the matrix build raise
(helper: `np.array` rejects inhomogeneous stacks). -/
theorem buildMatrix_eq_none_of_shape_mismatch {articles : List DArticle}
    {a b : DArticle} {ea eb : DEmb} (ha : a ∈ articles) (hb : b ∈ articles)
    (hea : a.embedding = some ea) (heb : b.embedding = some eb)
    (hsh : embShape ea ≠ embShape eb) :
    buildMatrix articles = none := by
  rw [buildMatrix]
  cases hc : collectEmbs articles with
  | none => rfl
  | some embs =>
    have hma : ea ∈ embs := mem_collectEmbs hc a ha ea hea
    have hmb : eb ∈ embs := mem_collectEmbs hc b hb eb heb
    cases embs with
    | nil => cases hma
    | cons e0 es =>
      show (if (es.all fun x => decide (embShape x = embShape e0)) = true
        then some (e0 :: es) else none) = none
      rw [if_neg]
      intro hall
      have hsame : ∀ x ∈ e0 :: es, embShape x = embShape e0 := by
        intro x hx
        rcases List.mem_cons.mp hx with hx0 | hxs
        · rw [hx0]
        · exact of_decide_eq_true (List.all_eq_true.mp hall x hxs)
      exact hsh ((hsame ea hma).trans (hsame eb hmb).symm)

/-- Claim C7, counterexample: for a one-article input whose embedding is
`None` — a value that cannot be converted to a numeric vector — the
matrix build succeeds as a homogeneous 0-d-object stack, so the fail-open
`except` branch is not taken; the clustering call then raises outside the
`try` and the exception propagates instead of the input being returned
unchanged. -/
theorem dedupe_fail_open_counterexample :
    dedupe_events_ai [0] [⟨"t", some DEmb.obj⟩] =
        Except.error "ValueError from DBSCAN.fit: non-numeric matrix" ∧
      dedupe_events_ai [0] [⟨"t", some DEmb.obj⟩] ≠
        Except.ok [⟨"t", some DEmb.obj⟩] := by
  have h1 : dedupe_events_ai [0] [⟨"t", some DEmb.obj⟩] =
      Except.error "ValueError from DBSCAN.fit: non-numeric matrix" := rfl
  exact ⟨h1, fun hcon => Except.noConfusion (h1.symm.trans hcon)⟩

/-- Claim C7 (amended): the fail-open pass-through covers exactly the
errors raised while building the embedding matrix — a missing
`"embedding"` key (`KeyError` in the comprehension) or inhomogeneous
array shapes (`np.array` rejects the stack): in both cases
`dedupe_events_ai` catches the error and returns the original input list
unchanged without raising. (An embedding that is present but non-numeric
instead builds a homogeneous object matrix and makes the clustering call
raise outside the `try`; see `dedupe_fail_open_counterexample`.) -/
theorem dedupe_fail_open_on_build_error (labels : List Int)
    (articles : List DArticle) :
    ((∃ a ∈ articles, a.embedding = none) →
       dedupe_events_ai labels articles = Except.ok articles)
    ∧ (∀ a b ea eb, a ∈ articles → b ∈ articles →
        a.embedding = some ea → b.embedding = some eb →
        embShape ea ≠ embShape eb →
        dedupe_events_ai labels articles = Except.ok articles) := by
  constructor
  · rintro ⟨a, ha, hnone⟩
    have hne : articles ≠ [] := by
      intro hcon; subst hcon; cases ha
    rw [dedupe_events_ai, if_neg hne, buildMatrix_eq_none_of_mem ha hnone]
  · intro a b ea eb ha hb hea heb hsh
    have hne : articles ≠ [] := by
      intro hcon; subst hcon; cases ha
    rw [dedupe_events_ai, if_neg hne,
      buildMatrix_eq_none_of_shape_mismatch ha hb hea heb hsh]

/-- Witness for C7 (amended): a batch with a missing embedding key and a
batch mixing a length-2 vector with a 0-d object both pass through
unchanged. -/
theorem dedupe_fail_open_on_build_error_witness :
    dedupe_events_ai [0, 0] [⟨"a", some (DEmb.vec [1])⟩, ⟨"b", none⟩] =
      Except.ok [⟨"a", some (DEmb.vec [1])⟩, ⟨"b", none⟩] ∧
    dedupe_events_ai [0, 0]
        [⟨"a", some (DEmb.vec [1, 2])⟩, ⟨"b", some DEmb.obj⟩] =
      Except.ok [⟨"a", some (DEmb.vec [1, 2])⟩, ⟨"b", some DEmb.obj⟩] := by
  constructor
  · exact (dedupe_fail_open_on_build_error [0, 0]
      [⟨"a", some (DEmb.vec [1])⟩, ⟨"b", none⟩]).1
      ⟨⟨"b", none⟩, by decide, rfl⟩
  · exact (dedupe_fail_open_on_build_error [0, 0]
      [⟨"a", some (DEmb.vec [1, 2])⟩, ⟨"b", some DEmb.obj⟩]).2
      ⟨"a", some (DEmb.vec [1, 2])⟩ ⟨"b", some DEmb.obj⟩
      (DEmb.vec [1, 2]) DEmb.obj (by decide) (by decide) rfl rfl
      (by decide)

/-- The scan underlying `max(..., key=...)` returns an element that is
strictly greater than everything before it and at least as great as
everything after it (helper). -/
theorem foldl_pick_spec : ∀ (rest : List DArticle) (a : DArticle),
    ∃ l1 l2,
      a :: rest = l1 ++
        (rest.foldl (fun best x =>
          if titleLen best < titleLen x then x else best) a) :: l2 ∧
      (∀ x ∈ l1, titleLen x < titleLen
        (rest.foldl (fun best x =>
          if titleLen best < titleLen x then x else best) a)) ∧
      (∀ x ∈ l2, titleLen x ≤ titleLen
        (rest.foldl (fun best x =>
          if titleLen best < titleLen x then x else best) a)) := by
  intro rest
  induction rest with
  | nil =>
    intro a
    exact ⟨[], [], by simp, by simp, by simp⟩
  | cons x xs ih =>
    intro a
    rw [List.foldl_cons]
    by_cases hax : titleLen a < titleLen x
    · rw [if_pos hax]
      obtain ⟨l1, l2, hsplit, hlt, hle⟩ := ih x
      set b := xs.foldl (fun best y =>
        if titleLen best < titleLen y then y else best) x with hb
      have hxb : titleLen x ≤ titleLen b := by
        cases l1 with
        | nil =>
          have : x = b := by simpa using congrArg (fun l => l.head?) hsplit
          rw [this]
        | cons y l1t =>
          have hxy : x = y := by simpa using congrArg (fun l => l.head?) hsplit
          rw [hxy]
          exact Nat.le_of_lt (hlt y (by simp))
      refine ⟨a :: l1, l2, ?_, ?_, hle⟩
      · rw [List.cons_append, ← hsplit]
      · intro y hy
        rcases List.mem_cons.mp hy with hya | hyl
        · subst hya; exact Nat.lt_of_lt_of_le hax hxb
        · exact hlt y hyl
    · rw [if_neg hax]
      obtain ⟨l1, l2, hsplit, hlt, hle⟩ := ih a
      set b := xs.foldl (fun best y =>
        if titleLen best < titleLen y then y else best) a with hb
      cases l1 with
      | nil =>
        have hba : a = b := by simpa using congrArg (fun l => l.head?) hsplit
        have hxs : xs = l2 := by simpa using congrArg (fun l => l.tail) hsplit
        refine ⟨[], x :: xs, by simp [← hba], by simp, ?_⟩
        intro y hy
        rcases List.mem_cons.mp hy with hyx | hyxs
        · subst hyx
          rw [← hba]
          omega
        · rw [← hxs] at hle
          exact hle y hyxs
      | cons y l1t =>
        have hya : y = a := by
          have := congrArg (fun l => l.head?) hsplit
          simpa using this.symm
        subst hya
        have hxs : xs = l1t ++ b :: l2 := by
          simpa using congrArg (fun l => l.tail) hsplit
        have hab : titleLen y < titleLen b := hlt y (by simp)
        refine ⟨y :: x :: l1t, l2, ?_, ?_, hle⟩
        · rw [hxs]; simp
        · intro z hz
          rcases List.mem_cons.mp hz with hzy | hz2
          · subst hzy; exact hab
          rcases List.mem_cons.mp hz2 with hzx | hzl
          · subst hzx
            omega
          · exact hlt z (by simp [hzl])

/-- Projecting the article components of a zip yields a sublist of the
articles (helper). -/
theorem map_snd_zip_sublist :
    ∀ (labels : List Int) (articles : List DArticle),
      List.Sublist ((labels.zip articles).map Prod.snd) articles
  | [], _ => by simp
  | _ :: _, [] => by simp
  | l :: ls, a :: as => by
    rw [List.zip_cons_cons, List.map_cons]
    exact (map_snd_zip_sublist ls as).cons₂ a

/-- Every cluster is a sublist of the input, so member order within a
cluster is input order (helper). -/
theorem group_sublist (labels : List Int) (articles : List DArticle)
    (g : List DArticle) (hg : g ∈ groupByLabels labels articles) :
    List.Sublist g articles := by
  simp only [groupByLabels, List.mem_map] at hg
  obtain ⟨l, -, hgl⟩ := hg
  subst hgl
  exact (((List.filter_sublist _).map Prod.snd).trans
    (map_snd_zip_sublist labels articles))

/-- Claim C8: every non-empty cluster built by `dedupe_events_ai` keeps
its members in input order, and the exemplar `pickBest` selects is a
member whose title length is maximal, with every earlier member strictly
shorter — the earliest longest-titled member wins ties. -/
theorem dedupe_exemplar_choice (labels : List Int) (articles : List DArticle)
    (g : List DArticle) (hg : g ∈ groupByLabels labels articles)
    (hne : g ≠ []) :
    List.Sublist g articles ∧
    ∃ b l1 l2, pickBest g = some b ∧ g = l1 ++ b :: l2 ∧
      (∀ x ∈ l1, titleLen x < titleLen b) ∧
      (∀ x ∈ l2, titleLen x ≤ titleLen b) := by
  refine ⟨group_sublist labels articles g hg, ?_⟩
  cases g with
  | nil => exact absurd rfl hne
  | cons a rest =>
    obtain ⟨l1, l2, hsplit, hlt, hle⟩ := foldl_pick_spec rest a
    exact ⟨_, l1, l2, rfl, hsplit, hlt, hle⟩

/-- Witness for C8 on a concrete two-article cluster. -/
theorem dedupe_exemplar_choice_witness :
    List.Sublist
      [(⟨"ab", some (DEmb.vec [1])⟩ : DArticle), ⟨"abc", some (DEmb.vec [2])⟩]
      [(⟨"ab", some (DEmb.vec [1])⟩ : DArticle), ⟨"abc", some (DEmb.vec [2])⟩] ∧
    ∃ b l1 l2,
      pickBest [(⟨"ab", some (DEmb.vec [1])⟩ : DArticle),
        ⟨"abc", some (DEmb.vec [2])⟩] = some b ∧
      [(⟨"ab", some (DEmb.vec [1])⟩ : DArticle),
        ⟨"abc", some (DEmb.vec [2])⟩] = l1 ++ b :: l2 ∧
      (∀ x ∈ l1, titleLen x < titleLen b) ∧
      (∀ x ∈ l2, titleLen x ≤ titleLen b) :=
  dedupe_exemplar_choice [0, 0]
    [⟨"ab", some (DEmb.vec [1])⟩, ⟨"abc", some (DEmb.vec [2])⟩]
    [⟨"ab", some (DEmb.vec [1])⟩, ⟨"abc", some (DEmb.vec [2])⟩]
    (by decide) (by decide)

/-! ## Embedder and persistence dict effects (embedder.py, newspipe.py) -/

/-- A JSON-ish dict value: articles hold strings and (in memory) numpy
vectors; vector components stand for the numeric values. -/
inductive JVal where
  | str : String → JVal
  | vec : List Int → JVal
deriving DecidableEq

/-- A Python dict as an ordered association list (keys unique in
practice). -/
abbrev JDict := List (String × JVal)

/-- `d.get(k)` / `d[k]`: value of the first entry with key `k`. -/
def dictGet (d : JDict) (k : String) : Option JVal :=
  (d.find? (fun kv => kv.1 = k)).map (fun kv => kv.2)

/-- `d[k] = v`: replace in place when the key exists, else append. -/
def dictSet (d : JDict) (k : String) (v : JVal) : JDict :=
  if d.any (fun kv => kv.1 = k) then
    d.map (fun kv => if kv.1 = k then (k, v) else kv)
  else d ++ [(k, v)]

/-- `d.pop(k, None)`: drop every entry with key `k`, keep the rest in
order. -/
def dictPop (d : JDict) (k : String) : JDict :=
  d.filter (fun kv => kv.1 ≠ k)

/-- `find?` ignores a prefix with no match (helper). -/
theorem find?_append_skip {α : Type} {p : α → Bool} {l1 l2 : List α}
    (h : ∀ x ∈ l1, ¬ p x = true) : (l1 ++ l2).find? p = l2.find? p := by
  induction l1 with
  | nil => rfl
  | cons a l1 ih =>
    rw [List.cons_append, List.find?_cons]
    rw [Bool.eq_false_iff.mpr (h a (List.mem_cons_self a l1))]
    exact ih (fun x hx => h x (List.mem_cons_of_mem a hx))

/-- After popping a key it is absent (helper). -/
theorem dictGet_dictPop_self (d : JDict) (k : String) :
    dictGet (dictPop d k) k = none := by
  simp only [dictGet, dictPop]
  rw [List.find?_eq_none.mpr]
  · rfl
  · intro kv hkv
    have := List.of_mem_filter hkv
    simpa using this

/-- Popping one key leaves every other key unchanged (helper). -/
theorem dictGet_dictPop_ne (d : JDict) (k k2 : String) (hne : k2 ≠ k) :
    dictGet (dictPop d k) k2 = dictGet d k2 := by
  induction d with
  | nil => rfl
  | cons kv rest ih =>
    simp only [dictGet, dictPop] at ih ⊢
    by_cases hk : kv.1 = k
    · rw [List.filter_cons_of_neg (by simpa using hk)]
      have h2 : (decide (kv.1 = k2)) = false := by
        simp only [decide_eq_false_iff_not]
        intro hcon
        exact hne (by rw [← hcon, hk])
      rw [ih, List.find?_cons, h2]
    · rw [List.filter_cons_of_pos (by simpa using hk)]
      rw [List.find?_cons, List.find?_cons]
      cases h2 : decide (kv.1 = k2) with
      | true => rfl
      | false => exact ih

/-- After assignment the key holds the new value (helper). -/
theorem dictGet_dictSet_self (d : JDict) (k : String) (v : JVal) :
    dictGet (dictSet d k v) k = some v := by
  simp only [dictGet, dictSet]
  by_cases hany : d.any (fun kv => decide (kv.1 = k)) = true
  · rw [if_pos hany]
    induction d with
    | nil => simp at hany
    | cons kv0 rest ih =>
      rw [List.map_cons, List.find?_cons]
      by_cases h0 : kv0.1 = k
      · rw [if_pos h0]
        simp
      · rw [if_neg h0]
        have hd : (decide (kv0.1 = k)) = false := by simpa using h0
        rw [hd]
        have hrest : rest.any (fun kv => decide (kv.1 = k)) = true := by
          rcases List.any_eq_true.mp hany with ⟨kv, hmem, hkv⟩
          rcases List.mem_cons.mp hmem with he | hr
          · exact absurd (by rw [he] at hkv; simpa using hkv) h0
          · exact List.any_eq_true.mpr ⟨kv, hr, hkv⟩
        exact ih hrest
  · rw [if_neg hany]
    rw [find?_append_skip]
    · simp
    · intro kv hkv
      simp only [decide_eq_true_eq]
      intro hcon
      exact hany (List.any_eq_true.mpr ⟨kv, hkv, by simpa using hcon⟩)

/-- In-place replacement of one key is invisible to lookups of other
keys (helper). -/
theorem find?_mapReplace_ne (d : JDict) (k k2 : String) (v : JVal)
    (hne : k2 ≠ k) :
    (d.map (fun kv => if kv.1 = k then (k, v) else kv)).find?
        (fun kv => kv.1 = k2) =
      d.find? (fun kv => kv.1 = k2) := by
  induction d with
  | nil => rfl
  | cons kv0 rest ih =>
    rw [List.map_cons, List.find?_cons, List.find?_cons]
    by_cases h0 : kv0.1 = k
    · rw [if_pos h0]
      have ha : (decide (((k, v) : String × JVal).1 = k2)) = false := by
        simp only [decide_eq_false_iff_not]
        exact fun hcon => hne hcon.symm
      have hb : (decide (kv0.1 = k2)) = false := by
        simp only [decide_eq_false_iff_not]
        intro hcon
        exact hne (by rw [← hcon, h0])
      rw [ha, hb]
      exact ih
    · rw [if_neg h0]
      cases h2 : decide (kv0.1 = k2) with
      | true => rfl
      | false => exact ih

/-- `find?` ignores an appended suffix with no match (helper). -/
theorem find?_append_drop_right {α : Type} {p : α → Bool} {l1 l2 : List α}
    (h : ∀ x ∈ l2, ¬ p x = true) : (l1 ++ l2).find? p = l1.find? p := by
  induction l1 with
  | nil => simpa using List.find?_eq_none.mpr h
  | cons a l1 ih =>
    rw [List.cons_append, List.find?_cons, List.find?_cons]
    cases ha : p a with
    | true => rfl
    | false => exact ih

/-- Assigning one key leaves every other key unchanged (helper). -/
theorem dictGet_dictSet_ne (d : JDict) (k k2 : String) (v : JVal)
    (hne : k2 ≠ k) : dictGet (dictSet d k v) k2 = dictGet d k2 := by
  simp only [dictGet, dictSet]
  by_cases hany : d.any (fun kv => decide (kv.1 = k)) = true
  · rw [if_pos hany]
    rw [find?_mapReplace_ne d k k2 v hne]
  · rw [if_neg hany]
    rw [find?_append_drop_right]
    intro kv hkv
    simp only [List.mem_singleton] at hkv
    subst hkv
    simp only [decide_eq_true_eq]
    exact fun hcon => hne hcon.symm

/-- The per-article effect of `embed_articles` in embedder.py:
`a["_hash"] = make_hash(a["title"])`, then `a["embedding"]` is the cached
vector on a hit or the model encoding on a miss (the batched second loop
assigns exactly the encoding of the article title). `none` models the
`KeyError` when `a["title"]` is absent or not a string. `hashFn`,
`cacheGet` and `encode` stand for sha256, the sqlite cache and the
sentence-transformer model. -/
def embed_article_step (hashFn : String → String)
    (cacheGet : String → Option (List Int)) (encode : String → List Int)
    (d : JDict) : Option JDict :=
  match dictGet d "title" with
  | some (JVal.str t) =>
    let h := hashFn t
    let d1 := dictSet d "_hash" (JVal.str h)
    let emb := match cacheGet h with
      | some cached => cached
      | none => encode t
    some (dictSet d1 "embedding" (JVal.vec emb))
  | _ => none

/-- `embed_articles` over the whole list: every article gets its `_hash`
and `embedding` keys. -/
def embed_articles (hashFn : String → String)
    (cacheGet : String → Option (List Int)) (encode : String → List Int) :
    List JDict → Option (List JDict)
  | [] => some []
  | d :: rest =>
    match embed_article_step hashFn cacheGet encode d,
        embed_articles hashFn cacheGet encode rest with
    | some e, some es => some (e :: es)
    | _, _ => none

/-- `save_results_json` in newspipe.py: for each article, write a shallow
copy with the `embedding` key popped. -/
def save_results_json (articles : List JDict) : List JDict :=
  articles.map (fun d => dictPop d "embedding")

/-- One embedding step adds `_hash = hashFn(title)` and touches no key
other than `_hash` and `embedding` (helper). -/
theorem embed_step_props (hashFn : String → String)
    (cacheGet : String → Option (List Int)) (encode : String → List Int)
    (d e : JDict)
    (hstep : embed_article_step hashFn cacheGet encode d = some e) :
    ∃ t, dictGet d "title" = some (JVal.str t) ∧
      dictGet e "_hash" = some (JVal.str (hashFn t)) ∧
      (∀ k, k ≠ "embedding" → k ≠ "_hash" → dictGet e k = dictGet d k) := by
  cases ht : dictGet d "title" with
  | none => rw [embed_article_step, ht] at hstep; cases hstep
  | some val =>
    cases val with
    | vec w => rw [embed_article_step, ht] at hstep; cases hstep
    | str t =>
      rw [embed_article_step, ht] at hstep
      simp only [Option.some.injEq] at hstep
      refine ⟨t, rfl, ?_, ?_⟩
      · rw [← hstep]
        rw [dictGet_dictSet_ne _ _ _ _ (by decide)]
        exact dictGet_dictSet_self _ _ _
      · intro k hke hkh
        rw [← hstep]
        rw [dictGet_dictSet_ne _ _ _ _ hke, dictGet_dictSet_ne _ _ _ _ hkh]

/-- A successful `embed_articles` run processes the articles pointwise
(helper). -/
theorem embed_articles_forall2 (hashFn : String → String)
    (cacheGet : String → Option (List Int)) (encode : String → List Int) :
    ∀ (articles out : List JDict),
      embed_articles hashFn cacheGet encode articles = some out →
      List.Forall₂
        (fun d e => embed_article_step hashFn cacheGet encode d = some e)
        articles out := by
  intro articles
  induction articles with
  | nil =>
    intro out h
    rw [embed_articles] at h
    simp only [Option.some.injEq] at h
    subst h
    exact List.Forall₂.nil
  | cons d rest ih =>
    intro out h
    rw [embed_articles] at h
    cases hstep : embed_article_step hashFn cacheGet encode d with
    | none => rw [hstep] at h; cases h
    | some e =>
      cases hrest : embed_articles hashFn cacheGet encode rest with
      | none => rw [hstep, hrest] at h; cases h
      | some es =>
        rw [hstep, hrest] at h
        simp only [Option.some.injEq] at h
        subst h
        exact List.Forall₂.cons hstep (ih es hrest)

/-- Claim C10: after `embed_articles` succeeds, `save_results_json`
removes exactly the `embedding` key from each article — every other key
of the embedded article persists unchanged — and in the persisted
representation every article carries `_hash = hashFn(title)` while all
keys other than `_hash` and `embedding` are exactly those of the
original input article. -/
theorem embed_hash_frame_and_strip (hashFn : String → String)
    (cacheGet : String → Option (List Int)) (encode : String → List Int)
    (articles out : List JDict)
    (h : embed_articles hashFn cacheGet encode articles = some out) :
    List.Forall₂ (fun e p => p = dictPop e "embedding" ∧
      dictGet p "embedding" = none ∧
      ∀ k, k ≠ "embedding" → dictGet p k = dictGet e k)
      out (save_results_json out)
    ∧ List.Forall₂ (fun d p =>
        ∃ t, dictGet d "title" = some (JVal.str t) ∧
          dictGet p "_hash" = some (JVal.str (hashFn t)) ∧
          dictGet p "embedding" = none ∧
          ∀ k, k ≠ "embedding" → k ≠ "_hash" → dictGet p k = dictGet d k)
        articles (save_results_json out) := by
  constructor
  · rw [save_results_json, List.forall₂_map_right_iff]
    rw [List.forall₂_same]
    intro e _
    exact ⟨rfl, dictGet_dictPop_self e "embedding",
      fun k hk => dictGet_dictPop_ne e "embedding" k hk⟩
  · rw [save_results_json, List.forall₂_map_right_iff]
    refine (embed_articles_forall2 hashFn cacheGet encode articles out h).imp ?_
    intro d e hstep
    obtain ⟨t, hti, hh, hframe⟩ :=
      embed_step_props hashFn cacheGet encode d e hstep
    refine ⟨t, hti, ?_, dictGet_dictPop_self e "embedding", ?_⟩
    · rw [dictGet_dictPop_ne e "embedding" "_hash" (by decide)]
      exact hh
    · intro k hke hkh
      rw [dictGet_dictPop_ne e "embedding" k hke]
      exact hframe k hke hkh

/-- Witness for C10 on a one-article batch with a cache miss. -/
theorem embed_hash_frame_and_strip_witness :
    List.Forall₂ (fun e p => p = dictPop e "embedding" ∧
      dictGet p "embedding" = none ∧
      ∀ k, k ≠ "embedding" → dictGet p k = dictGet e k)
      [[("title", JVal.str "t1"), ("link", JVal.str "u"),
        ("_hash", JVal.str "t1#"), ("embedding", JVal.vec [7])]]
      (save_results_json
        [[("title", JVal.str "t1"), ("link", JVal.str "u"),
          ("_hash", JVal.str "t1#"), ("embedding", JVal.vec [7])]])
    ∧ List.Forall₂ (fun d p =>
        ∃ t, dictGet d "title" = some (JVal.str t) ∧
          dictGet p "_hash" =
            some (JVal.str ((fun s => String.append s "#") t)) ∧
          dictGet p "embedding" = none ∧
          ∀ k, k ≠ "embedding" → k ≠ "_hash" → dictGet p k = dictGet d k)
        [[("title", JVal.str "t1"), ("link", JVal.str "u")]]
        (save_results_json
          [[("title", JVal.str "t1"), ("link", JVal.str "u"),
            ("_hash", JVal.str "t1#"), ("embedding", JVal.vec [7])]]) :=
  embed_hash_frame_and_strip (fun s => String.append s "#") (fun _ => none)
    (fun _ => [7])
    [[("title", JVal.str "t1"), ("link", JVal.str "u")]]
    [[("title", JVal.str "t1"), ("link", JVal.str "u"),
      ("_hash", JVal.str "t1#"), ("embedding", JVal.vec [7])]]
    (by decide)

end Newsflash
